import Mathlib

/-!
Verification of `angular_to_prompt.py`.

The program walks a directory tree with `os.walk`, prunes ignored directory
names in place, renders an indented tree listing (`generate_tree`), collects
the retained files' contents into delimited blocks (`generate_prompt`), and
writes the concatenation to an output file (`main`).

The filesystem is embedded as the tree `FSTree`: a directory has a name, a
list of subdirectories and a list of file entries; each file entry carries the
outcome of opening and reading it as UTF-8 text (`ReadResult.ok` with the
decoded content, or `ReadResult.error` with the formatted exception message).
List order is the enumeration order `os.walk` uses.  The absolute start path
(`os.path.abspath(args.path)`) is carried as a plain string; the path strings
`os.walk` yields are modelled faithfully as `startpath ++ "/c1/.../ck"`
(the start path is normalized and does not end in a slash), and the
`root.replace(startpath, '').count(os.sep)` level computation of the source is
reproduced character by character.
-/

/-- The outcome of `open(file_path, 'r', encoding='utf-8')` + `f.read()`:
either the decoded text, or the message of the raised exception. -/
inductive ReadResult where
  | ok (content : String)
  | error (msg : String)
deriving DecidableEq

/-- A directory entry that is a file: its name and the outcome of reading it. -/
structure FileEnt where
  name : String
  content : ReadResult
deriving DecidableEq

/-- A directory tree: directory name, subdirectories, files. -/
inductive FSTree where
  | node (name : String) (subdirs : List FSTree) (files : List FileEnt)

def FSTree.nameOf : FSTree → String
  | .node n _ _ => n

def FSTree.subdirsOf : FSTree → List FSTree
  | .node _ ds _ => ds

def FSTree.filesOf : FSTree → List FileEnt
  | .node _ _ fs => fs

/-- `IGNORE_DIRS` of the source (a set there; only membership is used). -/
def IGNORE_DIRS : List String :=
  ["node_modules", "dist", ".git", ".angular", ".vscode", ".idea", "coverage"]

/-- `IGNORE_FILES` of the source. -/
def IGNORE_FILES : List String :=
  ["package-lock.json", "yarn.lock", ".DS_Store", "favicon.ico"]

/-- `IGNORE_EXTENSIONS` of the source. -/
def IGNORE_EXTENSIONS : List String :=
  [".png", ".jpg", ".jpeg", ".gif", ".svg", ".ico",
   ".ttf", ".woff", ".woff2", ".eot", ".mp4", ".pdf",
   ".exe", ".dll", ".so", ".dylib", ".class", ".jar"]

/-- Index of the last dot in a character list, if any. -/
def lastDotIdx (cs : List Char) : Option Nat :=
  match cs.reverse.findIdx? (fun c => c == '.') with
  | none => none
  | some j => some (cs.length - 1 - j)

/-- `os.path.splitext(name)[1]` for a basename (no separators): the extension
starts at the last dot, except when every character before that dot is itself
a dot (e.g. `.DS_Store` has extension `""`). -/
def splitext_ext (name : String) : String :=
  let cs := name.toList
  match lastDotIdx cs with
  | none => ""
  | some i => if (cs.take i).all (fun c => c == '.') then "" else String.mk (cs.drop i)

/-- One item yielded by `os.walk`: the directory's path relative to the start
path (as components; `[]` is the start directory itself), the directory's own
name, and its files. -/
structure WalkEntry where
  path : List String
  dirname : String
  files : List FileEnt
deriving DecidableEq

mutual
/-- `os.walk(startpath)` (top-down) together with the in-place pruning
`dirs[:] = [d for d in dirs if d not in IGNORE_DIRS]` that both
`generate_tree` and `generate_prompt` perform before descending. -/
def walk : FSTree → List WalkEntry
  | .node name subdirs files => ⟨[], name, files⟩ :: walkList subdirs

def walkList : List FSTree → List WalkEntry
  | [] => []
  | d :: ds =>
    (if d.nameOf ∈ IGNORE_DIRS then []
     else (walk d).map (fun e => ⟨d.nameOf :: e.path, e.dirname, e.files⟩))
      ++ walkList ds
end

/-- Concatenation of a list of strings (a Python `+=` loop over strings). -/
def strJoin : List String → String
  | [] => ""
  | s :: rest => s ++ strJoin rest

/-- Python `sep.join(parts)`. -/
def joinSep (sep : String) : List String → String
  | [] => ""
  | [s] => s
  | s :: rest => s ++ sep ++ joinSep sep rest

/-- `' ' * n`. -/
def spaces (n : Nat) : String := String.mk (List.replicate n ' ')

/-- Worker for Python `text.replace(pat, '')`: scans left to right; `k` is the
number of characters of an already-matched occurrence still to be skipped. -/
def pyRemoveAux (p : List Char) : Nat → List Char → List Char
  | _, [] => []
  | k+1, _ :: cs => pyRemoveAux p k cs
  | 0, c :: cs =>
    match p with
    | [] => c :: pyRemoveAux p 0 cs
    | q :: qs =>
      if (q :: qs).isPrefixOf (c :: cs) then pyRemoveAux p qs.length cs
      else c :: pyRemoveAux p 0 cs

/-- Python `text.replace(pat, '')`: remove every occurrence of `pat`,
left to right, non-overlapping. -/
def pyRemove (p s : List Char) : List Char := pyRemoveAux p 0 s

/-- The character list of the suffix `os.walk` appends to the start path for a
directory at relative path `path`: `/c1/c2/.../ck` (via `os.path.join`). -/
def suffixChars (path : List String) : List Char :=
  path.flatMap (fun n => '/' :: n.toList)

/-- The `root` string `os.walk` yields for the directory at `path`. -/
def rootChars (sp : String) (path : List String) : List Char :=
  sp.toList ++ suffixChars path

/-- Line 29 of the source: `root.replace(startpath, '').count(os.sep)`. -/
def levelOf (sp : String) (path : List String) : Nat :=
  (pyRemove sp.toList (rootChars sp path)).count '/'

/-- `os.path.basename`: everything after the last slash. -/
def basenameChars (cs : List Char) : List Char :=
  (cs.reverse.takeWhile (fun c => c != '/')).reverse

/-- `os.path.basename(root)` for the directory at `path` under `sp`. -/
def basenameStr (sp : String) (path : List String) : String :=
  String.mk (basenameChars (rootChars sp path))

/-- The segment of `tree_str` contributed by one `os.walk` iteration
(lines 29-35 of the source): the directory line, then the retained files. -/
def treeEntryStr (sp : String) (e : WalkEntry) : String :=
  let indent := spaces (4 * levelOf sp e.path)
  let subindent := spaces (4 * (levelOf sp e.path + 1))
  indent ++ basenameStr sp e.path ++ "/\n" ++
    strJoin (e.files.map (fun f =>
      if f.name ∉ IGNORE_FILES ∧ splitext_ext f.name ∉ IGNORE_EXTENSIONS
      then subindent ++ f.name ++ "\n" else ""))

/-- `generate_tree(startpath)` of the source. -/
def generate_tree (sp : String) (t : FSTree) : String :=
  "### PROJECT STRUCTURE ###\n\n" ++ strJoin ((walk t).map (treeEntryStr sp)) ++ "\n"

/-- `os.path.relpath(os.path.join(root, file), startpath)` for the file `name`
in the directory at `path`: the slash-joined relative components. -/
def relpath (path : List String) (name : String) : String :=
  joinSep "/" (path ++ [name])

/-- The `output` list items one `os.walk` iteration of `generate_prompt`
appends (lines 52-71): per retained, readable file its five entries. -/
def entryOutput (e : WalkEntry) : List String :=
  e.files.flatMap (fun f =>
    if f.name ∈ IGNORE_FILES ∨ splitext_ext f.name ∈ IGNORE_EXTENSIONS then []
    else
      match f.content with
      | .ok content =>
        ["--- START OF FILE: " ++ relpath e.path f.name ++ " ---",
         "```typescript", content, "```",
         "--- END OF FILE: " ++ relpath e.path f.name ++ " ---\n"]
      | .error _ => [])

/-- The diagnostics one `os.walk` iteration of `generate_prompt` prints
(line 74): one per retained but unreadable file. -/
def entryPrinted (e : WalkEntry) : List String :=
  e.files.flatMap (fun f =>
    if f.name ∈ IGNORE_FILES ∨ splitext_ext f.name ∈ IGNORE_EXTENSIONS then []
    else
      match f.content with
      | .ok _ => []
      | .error err =>
        ["Skipping file " ++ relpath e.path f.name ++ " due to read error: " ++ err])

/-- What `generate_prompt` produces: the `output` list and what it prints. -/
structure PromptResult where
  output : List String
  printed : List String
deriving DecidableEq

/-- `generate_prompt(startpath)` of the source (before the final join):
the tree, the `### FILE CONTENTS ###` header, then the per-file items. -/
def generate_prompt (sp : String) (t : FSTree) : PromptResult :=
  ⟨[generate_tree sp t, "### FILE CONTENTS ###\n"] ++ (walk t).flatMap entryOutput,
   (walk t).flatMap entryPrinted⟩

/-- What `main` produces: everything printed, and the written file
(path and content), if any. -/
structure MainResult where
  printed : List String
  written : Option (String × String)
deriving DecidableEq

/-- `main()` of the source.  `project_path` is the resolved absolute path,
`pathExists` the result of `os.path.exists`, `t` the directory tree at that
path, `outputArg` the `-o` argument. -/
def main_model (project_path : String) (pathExists : Bool) (t : FSTree)
    (outputArg : String) : MainResult :=
  if pathExists then
    let pr := generate_prompt project_path t
    let full_prompt := joinSep "\n" pr.output
    ⟨["Scanning project at: " ++ project_path, "Generating prompt..."]
      ++ pr.printed
      ++ ["✅ Success! Prompt saved to: " ++ outputArg,
          "📊 Approximate Token Count: " ++ toString (full_prompt.length / 4)],
     some (outputArg, full_prompt)⟩
  else
    ⟨["Error: Path \x27" ++ project_path ++ "\x27 does not exist."], none⟩

/-- State of the file at `path` after a run: `open(..., "w")` truncates, so a
written file replaces whatever was there before. -/
def fileAfterRun (prev : Option String) (res : MainResult) (path : String) :
    Option String :=
  match res.written with
  | some pc => if pc.1 = path then some pc.2 else prev
  | none => prev

/-- `true` iff the file survives the ignore rules (name and extension). -/
def retainedFile (f : FileEnt) : Bool :=
  !(IGNORE_FILES.contains f.name) && !(IGNORE_EXTENSIONS.contains (splitext_ext f.name))

/-- The five output items of one file's content block. -/
def fileBlock (rel content : String) : List String :=
  ["--- START OF FILE: " ++ rel ++ " ---", "```typescript", content, "```",
   "--- END OF FILE: " ++ rel ++ " ---\n"]

/-- The content records one `os.walk` iteration emits: relative directory
path, file name and content of each retained, readable file. -/
def entryEmitted (e : WalkEntry) : List (List String × String × String) :=
  e.files.flatMap (fun f =>
    if retainedFile f then
      match f.content with
      | .ok c => [(e.path, f.name, c)]
      | .error _ => []
    else [])

/-- All content records of a run, in emission order. -/
def emitted (t : FSTree) : List (List String × String × String) :=
  (walk t).flatMap entryEmitted

mutual
/-- Remove every subdirectory with an ignored name, recursively, keeping
everything else unchanged. -/
def prune : FSTree → FSTree
  | .node n subs files => .node n (pruneList subs) files

def pruneList : List FSTree → List FSTree
  | [] => []
  | d :: ds =>
    if d.nameOf ∈ IGNORE_DIRS then pruneList ds else prune d :: pruneList ds
end

mutual
/-- Remove every file excluded by exact name or by extension, recursively. -/
def dropIgnoredFiles : FSTree → FSTree
  | .node n subs files => .node n (dropIgnoredFilesList subs) (files.filter retainedFile)

def dropIgnoredFilesList : List FSTree → List FSTree
  | [] => []
  | d :: ds => dropIgnoredFiles d :: dropIgnoredFilesList ds
end

mutual
/-- Apply `g` to the read outcome of every file in the tree. -/
def mapContents (g : ReadResult → ReadResult) : FSTree → FSTree
  | .node n subs files =>
    .node n (mapContentsList g subs) (files.map (fun f => ⟨f.name, g f.content⟩))

def mapContentsList (g : ReadResult → ReadResult) : List FSTree → List FSTree
  | [] => []
  | d :: ds => mapContents g d :: mapContentsList g ds
end

/-- `DirAt t p d`: in the tree `t`, following the child-directory names in `p`
leads to the directory `d` (`p = []` is `t` itself). -/
inductive DirAt : FSTree → List String → FSTree → Prop where
  | here (t : FSTree) : DirAt t [] t
  | there (n : String) (subs : List FSTree) (files : List FileEnt)
      (d target : FSTree) (p : List String) (hd : d ∈ subs)
      (hp : DirAt d p target) :
      DirAt (FSTree.node n subs files) (d.nameOf :: p) target

/-- `seg` occurs contiguously inside `l`. -/
def SegmentOf (seg l : List String) : Prop := ∃ a b, l = a ++ seg ++ b

mutual
/-- The tree listing the specification describes: for a retained directory at
nesting depth `depth`, its name suffixed by `/` indented by `4 * depth`
spaces, then its retained files one level deeper, then its retained
subdirectories, depth-first. -/
def specTreeLines (depth : Nat) : FSTree → List String
  | .node n subs files =>
    (spaces (4 * depth) ++ n ++ "/")
      :: (((files.filter retainedFile).map
            (fun f => spaces (4 * (depth + 1)) ++ f.name))
          ++ specTreeLinesList (depth + 1) subs)

def specTreeLinesList (depth : Nat) : List FSTree → List String
  | [] => []
  | d :: ds =>
    (if d.nameOf ∈ IGNORE_DIRS then [] else specTreeLines depth d)
      ++ specTreeLinesList depth ds
end

/-- Render of the specification's tree listing (§4.1, §6): header, the lines
each terminated by a newline, and the trailing blank line. -/
def specTreeRender (t : FSTree) : String :=
  "### PROJECT STRUCTURE ###\n\n"
    ++ strJoin ((specTreeLines 0 t).map (fun l => l ++ "\n")) ++ "\n"

/-- Does `p` occur (as a contiguous run) inside the character list? -/
def occursB (p : List Char) : List Char → Bool
  | [] => p.isEmpty
  | c :: cs => p.isPrefixOf (c :: cs) || occursB p cs

/-- Does the string contain no slash? -/
def noSlash (s : String) : Bool := !(s.toList.contains '/')

/-- Side condition under which the source's
`root.replace(startpath, '').count(os.sep)` computation equals the nesting
depth: directory names contain no slash, and the start-path string never
reoccurs inside the relative suffix of a visited directory. -/
def goodWalk (sp : String) (t : FSTree) : Bool :=
  (walk t).all (fun e =>
    e.path.all noSlash && !(occursB sp.toList (suffixChars e.path)))

/-- The content-collector stage's contribution to the written document:
everything `generate_prompt` emits after the tree renderer's output,
beginning with the newline that joins the two stages. -/
def content_output (t : FSTree) : String :=
  "\n" ++ joinSep "\n" ("### FILE CONTENTS ###\n" :: (walk t).flatMap entryOutput)

/-! ### Basic lemmas about the string and list helpers -/

theorem strJoin_append (a b : List String) :
    strJoin (a ++ b) = strJoin a ++ strJoin b := by
  induction a with
  | nil => simp [strJoin]
  | cons s rest ih => simp [strJoin, ih, String.append_assoc]

theorem strJoin_flatMap {α : Type} (l : List α) (f : α → List String) :
    strJoin (l.flatMap f) = strJoin (l.map (fun a => strJoin (f a))) := by
  induction l with
  | nil => rfl
  | cons a rest ih => simp [strJoin, strJoin_append, ih]

theorem joinSep_cons_cons (sep a b : String) (l : List String) :
    joinSep sep (a :: b :: l) = a ++ sep ++ joinSep sep (b :: l) := by
  rfl

/-- Filtering out exactly the elements that map to the empty string does not
change the joined result. -/
theorem strJoin_map_filter {α : Type} (l : List α) (p : α → Bool)
    (f : α → String) (h : ∀ x, p x = false → f x = "") :
    strJoin ((l.filter p).map f) = strJoin (l.map f) := by
  induction l with
  | nil => rfl
  | cons a rest ih =>
    by_cases hp : p a = true
    · simp [List.filter_cons, hp, strJoin, ih]
    · rw [Bool.not_eq_true] at hp
      simp [List.filter_cons, hp, strJoin, ih, h a hp]

/-- Filtering out exactly the elements that map to the empty list does not
change the flattened result. -/
theorem flatMap_filter {α β : Type} (l : List α) (p : α → Bool)
    (f : α → List β) (h : ∀ x, p x = false → f x = []) :
    (l.filter p).flatMap f = l.flatMap f := by
  induction l with
  | nil => rfl
  | cons a rest ih =>
    by_cases hp : p a = true
    · simp [List.filter_cons, hp, ih]
    · rw [Bool.not_eq_true] at hp
      simp [List.filter_cons, hp, ih, h a hp]

theorem segmentOf_flatMap {α : Type} (l : List α) (f : α → List String)
    (a : α) (h : a ∈ l) : SegmentOf (f a) (l.flatMap f) := by
  induction l with
  | nil => cases h
  | cons b bs ih =>
    rcases List.mem_cons.mp h with h | h
    · subst h
      exact ⟨[], bs.flatMap f, by simp⟩
    · rcases ih h with ⟨x, y, hxy⟩
      exact ⟨f b ++ x, y, by simp [hxy]⟩

theorem segmentOf_append_left (pre seg l : List String) (h : SegmentOf seg l) :
    SegmentOf seg (pre ++ l) := by
  rcases h with ⟨x, y, hxy⟩
  exact ⟨pre ++ x, y, by simp [hxy]⟩

/-! ### Induction principle for the nested tree type -/

mutual
/-- Induction over `FSTree`, with the inductive hypothesis available for every
subdirectory. -/
def FSTree.indOn (P : FSTree → Prop)
    (step : ∀ n subs files, (∀ d ∈ subs, P d) → P (FSTree.node n subs files)) :
    ∀ t, P t
  | .node n subs files => step n subs files (FSTree.indOnList P step subs)

def FSTree.indOnList (P : FSTree → Prop)
    (step : ∀ n subs files, (∀ d ∈ subs, P d) → P (FSTree.node n subs files)) :
    ∀ l : List FSTree, ∀ d ∈ l, P d
  | t :: ts, d, hd =>
    Or.elim (List.mem_cons.mp hd)
      (fun h => cast (congrArg P h.symm) (FSTree.indOn P step t))
      (fun h => FSTree.indOnList P step ts d h)
end

/-! ### Lemmas about `walk` -/

theorem mem_walkList (ds : List FSTree) (e : WalkEntry) :
    e ∈ walkList ds ↔
      ∃ d ∈ ds, d.nameOf ∉ IGNORE_DIRS ∧
        ∃ e2, e2 ∈ walk d ∧ e = ⟨d.nameOf :: e2.path, e2.dirname, e2.files⟩ := by
  induction ds with
  | nil => simp [walkList]
  | cons d ds ih =>
    by_cases hig : d.nameOf ∈ IGNORE_DIRS
    · simp only [walkList, if_pos hig, List.nil_append, ih]
      constructor
      · rintro ⟨d2, hd2, h⟩
        exact ⟨d2, List.mem_cons_of_mem d hd2, h⟩
      · rintro ⟨d2, hd2, hni, h⟩
        rcases List.mem_cons.mp hd2 with rfl | hd2
        · exact absurd hig hni
        · exact ⟨d2, hd2, hni, h⟩
    · simp only [walkList, if_neg hig, List.mem_append, List.mem_map, ih]
      constructor
      · rintro (⟨e2, he2, rfl⟩ | ⟨d2, hd2, h⟩)
        · exact ⟨d, List.mem_cons_self d ds, hig, e2, he2, rfl⟩
        · exact ⟨d2, List.mem_cons_of_mem d hd2, h⟩
      · rintro ⟨d2, hd2, hni, e2, he2, rfl⟩
        rcases List.mem_cons.mp hd2 with rfl | hd2
        · exact Or.inl ⟨e2, he2, rfl⟩
        · exact Or.inr ⟨d2, hd2, hni, e2, he2, rfl⟩

theorem walk_head (n : String) (subs : List FSTree) (files : List FileEnt) :
    walk (.node n subs files) = ⟨[], n, files⟩ :: walkList subs := by
  rfl

/-- Every directory the traversal visits lies outside the ignored set:
no component of a visited relative path is an ignored directory name. -/
theorem walk_path_not_ignored (t : FSTree) :
    ∀ e ∈ walk t, ∀ c ∈ e.path, c ∉ IGNORE_DIRS := by
  induction t using FSTree.indOn with
  | step n subs files ih =>
    intro e he c hc
    rw [walk_head] at he
    rcases List.mem_cons.mp he with rfl | he
    · cases hc
    · rcases (mem_walkList subs e).mp he with ⟨d, hd, hni, e2, he2, rfl⟩
      rcases List.mem_cons.mp hc with rfl | hc
      · exact hni
      · exact ih d hd e2 he2 c hc

/-! ### The ignore test as a Bool and as the source's conditions -/

theorem retainedFile_eq_true (f : FileEnt) :
    retainedFile f = true ↔
      (f.name ∉ IGNORE_FILES ∧ splitext_ext f.name ∉ IGNORE_EXTENSIONS) := by
  simp [retainedFile]

theorem retainedFile_eq_false (f : FileEnt) :
    retainedFile f = false ↔
      (f.name ∈ IGNORE_FILES ∨ splitext_ext f.name ∈ IGNORE_EXTENSIONS) := by
  rw [← Bool.not_eq_true, retainedFile_eq_true]
  tauto

/-! ### Pruned subtrees leave no trace: `walk` ignores them entirely -/

theorem prune_nameOf (t : FSTree) : (prune t).nameOf = t.nameOf := by
  cases t with
  | node n subs files => rfl

theorem walk_prune (t : FSTree) : walk (prune t) = walk t := by
  induction t using FSTree.indOn with
  | step n subs files ih =>
    show walk (.node n (pruneList subs) files) = walk (.node n subs files)
    rw [walk_head, walk_head]
    congr 1
    induction subs with
    | nil => rfl
    | cons d ds ihl =>
      have ihds := ihl (fun d2 hd2 => ih d2 (List.mem_cons_of_mem d hd2))
      by_cases hig : d.nameOf ∈ IGNORE_DIRS
      · show walkList (pruneList (d :: ds)) = walkList (d :: ds)
        simp only [pruneList, if_pos hig, walkList, if_pos hig, List.nil_append]
        exact ihds
      · show walkList (pruneList (d :: ds)) = walkList (d :: ds)
        simp only [pruneList, if_neg hig, walkList, prune_nameOf, if_neg hig,
          ih d (List.mem_cons_self d ds), ihds]

/-! ### Files excluded by name or extension leave no trace -/

theorem dropIgnoredFiles_nameOf (t : FSTree) :
    (dropIgnoredFiles t).nameOf = t.nameOf := by
  cases t with
  | node n subs files => rfl

/-- The entry-wise effect of `dropIgnoredFiles` on the traversal. -/
def filterEntry (e : WalkEntry) : WalkEntry :=
  ⟨e.path, e.dirname, e.files.filter retainedFile⟩

theorem walk_dropIgnoredFiles (t : FSTree) :
    walk (dropIgnoredFiles t) = (walk t).map filterEntry := by
  induction t using FSTree.indOn with
  | step n subs files ih =>
    show walk (.node n (dropIgnoredFilesList subs) (files.filter retainedFile))
        = (walk (.node n subs files)).map filterEntry
    rw [walk_head, walk_head, List.map_cons]
    congr 1
    induction subs with
    | nil => rfl
    | cons d ds ihl =>
      have ihds := ihl (fun d2 hd2 => ih d2 (List.mem_cons_of_mem d hd2))
      by_cases hig : d.nameOf ∈ IGNORE_DIRS
      · show walkList (dropIgnoredFilesList (d :: ds)) = _
        simp only [dropIgnoredFilesList, walkList, dropIgnoredFiles_nameOf,
          if_pos hig, List.nil_append, List.map_append, ihds]
      · show walkList (dropIgnoredFilesList (d :: ds)) = _
        simp only [dropIgnoredFilesList, walkList, dropIgnoredFiles_nameOf,
          if_neg hig, ih d (List.mem_cons_self d ds), ihds, List.map_append]
        congr 1
        simp [walkList, if_neg hig, List.map_map]
        intro a ha
        rfl

/-! ### The traversal does not look at file contents -/

theorem mapContents_nameOf (g : ReadResult → ReadResult) (t : FSTree) :
    (mapContents g t).nameOf = t.nameOf := by
  cases t with
  | node n subs files => rfl

/-- The entry-wise effect of `mapContents` on the traversal. -/
def mapEntry (g : ReadResult → ReadResult) (e : WalkEntry) : WalkEntry :=
  ⟨e.path, e.dirname, e.files.map (fun f => ⟨f.name, g f.content⟩)⟩

theorem walk_mapContents (g : ReadResult → ReadResult) (t : FSTree) :
    walk (mapContents g t) = (walk t).map (mapEntry g) := by
  induction t using FSTree.indOn with
  | step n subs files ih =>
    show walk (.node n (mapContentsList g subs) (files.map _))
        = (walk (.node n subs files)).map (mapEntry g)
    rw [walk_head, walk_head, List.map_cons]
    congr 1
    induction subs with
    | nil => rfl
    | cons d ds ihl =>
      have ihds := ihl (fun d2 hd2 => ih d2 (List.mem_cons_of_mem d hd2))
      by_cases hig : d.nameOf ∈ IGNORE_DIRS
      · show walkList (mapContentsList g (d :: ds)) = _
        simp only [mapContentsList, walkList, mapContents_nameOf,
          if_pos hig, List.nil_append, List.map_append, ihds]
      · show walkList (mapContentsList g (d :: ds)) = _
        simp only [mapContentsList, walkList, mapContents_nameOf,
          if_neg hig, ih d (List.mem_cons_self d ds), ihds, List.map_append]
        congr 1
        simp [walkList, if_neg hig, List.map_map]
        intro a ha
        rfl

/-! ### The content output as a sequence of blocks over `emitted` -/

theorem entryOutput_eq (e : WalkEntry) :
    entryOutput e
      = (entryEmitted e).flatMap (fun r => fileBlock (relpath r.1 r.2.1) r.2.2) := by
  show e.files.flatMap _ = (e.files.flatMap _).flatMap _
  rw [List.flatMap_assoc]
  apply List.flatMap_congr
  intro f hf
  by_cases hr : retainedFile f = true
  · have hni := (retainedFile_eq_true f).mp hr
    rw [if_neg (by tauto), if_pos hr]
    cases f.content with
    | ok c => simp [fileBlock]
    | error m => simp
  · rw [Bool.not_eq_true] at hr
    have hmem := (retainedFile_eq_false f).mp hr
    rw [if_pos hmem, if_neg (by simp [hr])]
    simp

/-- The `output` list of `generate_prompt` is exactly the tree, the header,
and one five-item block per record of `emitted`. -/
theorem generate_prompt_output_eq (sp : String) (t : FSTree) :
    (generate_prompt sp t).output
      = [generate_tree sp t, "### FILE CONTENTS ###\n"]
          ++ (emitted t).flatMap (fun r => fileBlock (relpath r.1 r.2.1) r.2.2) := by
  show _ ++ (walk t).flatMap entryOutput = _
  rw [List.append_cancel_left_eq]
  rw [emitted, List.flatMap_assoc]
  exact List.flatMap_congr (fun e _ => entryOutput_eq e)

/-- Membership in the per-entry content records. -/
theorem mem_entryEmitted (e : WalkEntry) (p : List String) (n : String)
    (b : String) :
    (p, n, b) ∈ entryEmitted e ↔
      p = e.path ∧ ∃ f ∈ e.files,
        f.name = n ∧ retainedFile f = true ∧ f.content = ReadResult.ok b := by
  show _ ∈ e.files.flatMap _ ↔ _
  rw [List.mem_flatMap]
  constructor
  · rintro ⟨f, hf, hmem⟩
    by_cases hr : retainedFile f = true
    · rw [if_pos hr] at hmem
      cases hc : f.content with
      | ok c =>
        rw [hc] at hmem
        simp only [List.mem_singleton, Prod.mk.injEq] at hmem
        rcases hmem with ⟨hp, hn, hb⟩
        exact ⟨hp, f, hf, hn.symm, hr, by rw [hc, hb]⟩
      | error m => rw [hc] at hmem; cases hmem
    · rw [Bool.not_eq_true] at hr
      rw [if_neg (by simp [hr])] at hmem
      cases hmem
  · rintro ⟨rfl, f, hf, rfl, hr, hc⟩
    exact ⟨f, hf, by rw [if_pos hr, hc]; exact List.mem_singleton.mpr rfl⟩

theorem mem_emitted (t : FSTree) (p : List String) (n b : String) :
    (p, n, b) ∈ emitted t ↔
      ∃ e ∈ walk t, p = e.path ∧ ∃ f ∈ e.files,
        f.name = n ∧ retainedFile f = true ∧ f.content = ReadResult.ok b := by
  rw [emitted, List.mem_flatMap]
  constructor
  · rintro ⟨e, he, hmem⟩
    exact ⟨e, he, (mem_entryEmitted e p n b).mp hmem⟩
  · rintro ⟨e, he, h⟩
    exact ⟨e, he, (mem_entryEmitted e p n b).mpr h⟩

/-! ### Navigating the tree vs. the traversal -/

theorem dirAt_mem_walk (t : FSTree) (p : List String) (d : FSTree)
    (h : DirAt t p d) (hp : ∀ c ∈ p, c ∉ IGNORE_DIRS) :
    (⟨p, d.nameOf, d.filesOf⟩ : WalkEntry) ∈ walk t := by
  induction h with
  | here t =>
    cases t with
    | node n subs files => exact List.mem_cons_self _ _
  | there n subs files d target q hd hq ih =>
    rw [walk_head]
    apply List.mem_cons_of_mem
    have hni : d.nameOf ∉ IGNORE_DIRS := hp d.nameOf (List.mem_cons_self _ _)
    have hq2 : ∀ c ∈ q, c ∉ IGNORE_DIRS :=
      fun c hc => hp c (List.mem_cons_of_mem _ hc)
    rw [mem_walkList]
    exact ⟨d, hd, hni, ⟨q, target.nameOf, target.filesOf⟩, ih hq2, rfl⟩

theorem mem_walk_dirAt (t : FSTree) :
    ∀ e ∈ walk t, ∃ d, DirAt t e.path d ∧ d.nameOf = e.dirname
      ∧ d.filesOf = e.files := by
  induction t using FSTree.indOn with
  | step n subs files ih =>
    intro e he
    rw [walk_head] at he
    rcases List.mem_cons.mp he with rfl | he
    · exact ⟨.node n subs files, DirAt.here _, rfl, rfl⟩
    · rcases (mem_walkList subs e).mp he with ⟨d, hd, hni, e2, he2, rfl⟩
      rcases ih d hd e2 he2 with ⟨target, ht, hn2, hf2⟩
      exact ⟨target, DirAt.there n subs files d target e2.path hd ht, hn2, hf2⟩

/-! ### The `replace`-based level computation -/

theorem isPrefixOf_append_self (p l : List Char) :
    p.isPrefixOf (p ++ l) = true := by
  induction p with
  | nil => simp [List.isPrefixOf]
  | cons q qs ih => simp [List.isPrefixOf, ih]

/-- Skipping `xs.length` characters of `xs ++ rest` resumes the scan at
`rest`. -/
theorem pyRemoveAux_skip (p : List Char) (xs rest : List Char) :
    pyRemoveAux p xs.length (xs ++ rest) = pyRemoveAux p 0 rest := by
  induction xs with
  | nil => rfl
  | cons x xs ih => simpa [pyRemoveAux] using ih

/-- A text without any occurrence of the pattern is left unchanged. -/
theorem pyRemoveAux_no_occurrence (p s : List Char)
    (h : occursB p s = false) : pyRemoveAux p 0 s = s := by
  induction s with
  | nil => rfl
  | cons c cs ih =>
    rw [occursB, Bool.or_eq_false_iff] at h
    cases p with
    | nil => simp [List.isPrefixOf] at h
    | cons q qs =>
      rw [pyRemoveAux, if_neg (by rw [h.1]; exact Bool.false_ne_true)]
      rw [ih h.2]

/-- Removing the pattern from a text that starts with it removes that first
occurrence and continues on the remainder. -/
theorem pyRemove_self_append (p rest : List Char) (hp : p ≠ []) :
    pyRemove p (p ++ rest) = pyRemove p rest := by
  cases p with
  | nil => exact absurd rfl hp
  | cons q qs =>
    show pyRemoveAux _ 0 (q :: (qs ++ rest)) = _
    rw [pyRemoveAux]
    rw [if_pos (show (q :: qs).isPrefixOf (q :: (qs ++ rest)) = true from
      isPrefixOf_append_self (q :: qs) rest)]
    exact pyRemoveAux_skip _ qs rest

theorem suffixChars_append (a b : List String) :
    suffixChars (a ++ b) = suffixChars a ++ suffixChars b := by
  simp [suffixChars]

theorem count_suffixChars (path : List String)
    (h : ∀ c ∈ path, noSlash c = true) :
    (suffixChars path).count '/' = path.length := by
  induction path with
  | nil => rfl
  | cons n rest ih =>
    have hn : noSlash n = true := h n (List.mem_cons_self _ _)
    have hn2 : ('/' : Char) ∉ n.toList := by
      simpa [noSlash] using hn
    show (('/' :: n.toList) ++ suffixChars rest).count '/' = rest.length + 1
    rw [List.count_append, List.count_cons_self,
      List.count_eq_zero.mpr hn2,
      ih (fun c hc => h c (List.mem_cons_of_mem _ hc))]
    omega

/-- Under the side conditions, the source's
`root.replace(startpath, '').count(os.sep)` equals the nesting depth. -/
theorem levelOf_eq_depth (sp : String) (path : List String)
    (h1 : sp.toList ≠ [])
    (h2 : occursB sp.toList (suffixChars path) = false)
    (h3 : ∀ c ∈ path, noSlash c = true) :
    levelOf sp path = path.length := by
  rw [levelOf, rootChars, pyRemove_self_append sp.toList (suffixChars path) h1]
  rw [pyRemove, pyRemoveAux_no_occurrence _ _ h2]
  exact count_suffixChars path h3

/-! ### Basenames of the visited root strings -/

theorem takeWhile_append_stop (p : Char → Bool) (a : List Char) (b : Char)
    (c : List Char) (ha : ∀ x ∈ a, p x = true) (hb : p b = false) :
    (a ++ b :: c).takeWhile p = a := by
  induction a with
  | nil => simp [List.takeWhile_cons, hb]
  | cons x xs ih =>
    rw [List.cons_append, List.takeWhile_cons,
      if_pos (ha x (List.mem_cons_self _ _)),
      ih (fun y hy => ha y (List.mem_cons_of_mem _ hy))]

theorem basenameChars_append_last (xs : List Char) (last : String)
    (h : noSlash last = true) :
    basenameChars (xs ++ '/' :: last.toList) = last.toList := by
  have hn : ∀ x ∈ last.toList.reverse, (x != '/') = true := by
    intro x hx
    rw [List.mem_reverse] at hx
    have : ('/' : Char) ∉ last.toList := by simpa [noSlash] using h
    simp only [bne_iff_ne, ne_eq]
    rintro rfl
    exact this hx
  rw [basenameChars, List.reverse_append, List.reverse_cons, List.append_assoc,
    List.singleton_append]
  rw [takeWhile_append_stop _ _ '/' _ hn (by simp)]
  exact List.reverse_reverse _

/-- A visited entry is either the root (empty relative path, carrying the
root's name) or its relative path ends in its own directory name. -/
theorem walk_entry_shape (t : FSTree) :
    ∀ e ∈ walk t, (e.path = [] ∧ e.dirname = t.nameOf)
      ∨ ∃ p0, e.path = p0 ++ [e.dirname] := by
  induction t using FSTree.indOn with
  | step n subs files ih =>
    intro e he
    rw [walk_head] at he
    rcases List.mem_cons.mp he with rfl | he
    · exact Or.inl ⟨rfl, rfl⟩
    · rcases (mem_walkList subs e).mp he with ⟨d, hd, _, e2, he2, rfl⟩
      rcases ih d hd e2 he2 with ⟨hp, hdn⟩ | ⟨p0, hp⟩
      · exact Or.inr ⟨[], by simp [hp, hdn]⟩
      · exact Or.inr ⟨d.nameOf :: p0, by simp [hp]⟩

/-- The lines the specification's rendering produces for one visited
directory at indentation level `k`. -/
def groupLines (k : Nat) (e : WalkEntry) : List String :=
  (spaces (4 * k) ++ e.dirname ++ "/")
    :: (e.files.filter retainedFile).map (fun f => spaces (4 * (k + 1)) ++ f.name)

theorem specTreeLines_eq_walk (t : FSTree) : ∀ k : Nat,
    specTreeLines k t
      = (walk t).flatMap (fun e => groupLines (k + e.path.length) e) := by
  induction t using FSTree.indOn with
  | step n subs files ih =>
    intro k
    have hhead : groupLines (k + ((⟨[], n, files⟩ : WalkEntry)).path.length)
        (⟨[], n, files⟩ : WalkEntry)
        = (spaces (4 * k) ++ n ++ "/")
            :: (files.filter retainedFile).map
                (fun f => spaces (4 * (k + 1)) ++ f.name) := by
      simp [groupLines]
    rw [walk_head, List.flatMap_cons, hhead, specTreeLines, List.cons_append]
    congr 2
    induction subs with
    | nil => rfl
    | cons d ds ihl =>
      have ihds := ihl (fun d2 hd2 => ih d2 (List.mem_cons_of_mem d hd2))
      simp only [specTreeLinesList, walkList, List.flatMap_append, ihds]
      congr 1
      by_cases hig : d.nameOf ∈ IGNORE_DIRS
      · rw [if_pos hig, if_pos hig]
        rfl
      · rw [if_neg hig, if_neg hig, ih d (List.mem_cons_self d ds) (k + 1),
          List.flatMap_map]
        apply List.flatMap_congr
        intro e he
        have harith : k + 1 + e.path.length = k + (e.path.length + 1) := by
          omega
        rw [harith]
        rfl

/-- Under the side conditions, one traversal entry's contribution to
`tree_str` is exactly its group of specification lines. -/
theorem treeEntryStr_eq_group (sp : String) (t : FSTree) (e : WalkEntry)
    (he : e ∈ walk t)
    (h1 : sp.toList ≠ [])
    (h2 : basenameChars sp.toList = t.nameOf.toList)
    (hocc : occursB sp.toList (suffixChars e.path) = false)
    (hsl : ∀ c ∈ e.path, noSlash c = true) :
    treeEntryStr sp e
      = strJoin ((groupLines e.path.length e).map (fun l => l ++ "\n")) := by
  have hlev : levelOf sp e.path = e.path.length :=
    levelOf_eq_depth sp e.path h1 hocc hsl
  have hbase : basenameStr sp e.path = e.dirname := by
    rcases walk_entry_shape t e he with ⟨hp, hd⟩ | ⟨p0, hp⟩
    · rw [hp, hd, basenameStr]
      show String.mk (basenameChars (sp.toList ++ suffixChars [])) = _
      rw [show suffixChars [] = ([] : List Char) from rfl, List.append_nil, h2]
      rfl
    · have hmem : e.dirname ∈ e.path := by
        rw [hp]
        exact List.mem_append_right _ (List.mem_singleton.mpr rfl)
      have hns : noSlash e.dirname = true := hsl _ hmem
      rw [basenameStr, rootChars, hp, suffixChars_append]
      rw [show suffixChars [e.dirname] = '/' :: e.dirname.toList from by
        simp [suffixChars]]
      rw [← List.append_assoc, basenameChars_append_last _ _ hns]
      rfl
  simp only [treeEntryStr, groupLines, hlev, hbase, List.map_cons, strJoin,
    List.map_map]
  have hfiles :
      strJoin ((e.files.filter retainedFile).map
        (fun f => (spaces (4 * (e.path.length + 1)) ++ f.name) ++ "\n"))
      = strJoin (e.files.map (fun f =>
          if f.name ∉ IGNORE_FILES ∧ splitext_ext f.name ∉ IGNORE_EXTENSIONS
          then spaces (4 * (e.path.length + 1)) ++ f.name ++ "\n" else "")) := by
    rw [show (e.files.filter retainedFile).map
          (fun f => (spaces (4 * (e.path.length + 1)) ++ f.name) ++ "\n")
        = (e.files.filter retainedFile).map (fun f =>
            if f.name ∉ IGNORE_FILES ∧ splitext_ext f.name ∉ IGNORE_EXTENSIONS
            then spaces (4 * (e.path.length + 1)) ++ f.name ++ "\n" else "")
      from List.map_congr_left (fun f hf => by
        rw [if_pos ((retainedFile_eq_true f).mp (List.mem_filter.mp hf).2)])]
    apply strJoin_map_filter
    intro f hf
    apply if_neg
    rw [retainedFile_eq_false] at hf
    tauto
  rw [show ((fun l => l ++ "\n") ∘ fun f : FileEnt =>
        spaces (4 * (e.path.length + 1)) ++ f.name)
      = (fun f : FileEnt => spaces (4 * (e.path.length + 1)) ++ f.name ++ "\n")
    from rfl]
  rw [hfiles]
  rw [String.append_assoc (spaces (4 * e.path.length) ++ e.dirname) "/" "\n"]
  rfl

/-- Amended tree-format claim: under the side conditions the rendered tree is
exactly the specification's listing. -/
theorem generate_tree_eq_spec (sp : String) (t : FSTree)
    (h1 : sp.toList ≠ [])
    (h2 : basenameChars sp.toList = t.nameOf.toList)
    (h3 : goodWalk sp t = true) :
    generate_tree sp t = specTreeRender t := by
  rw [generate_tree, specTreeRender]
  congr 2
  rw [specTreeLines_eq_walk t 0, List.map_flatMap,
    strJoin_flatMap (walk t) (fun e => (groupLines (0 + e.path.length) e).map
      (fun l => l ++ "\n"))]
  apply congrArg
  apply List.map_congr_left
  intro e he
  rw [goodWalk, List.all_eq_true] at h3
  have h3e := h3 e he
  rw [Bool.and_eq_true] at h3e
  have hsl : ∀ c ∈ e.path, noSlash c = true := List.all_eq_true.mp h3e.1
  have hocc : occursB sp.toList (suffixChars e.path) = false := by
    have := h3e.2
    rwa [Bool.not_eq_eq_eq_not, Bool.not_true] at this
  rw [Nat.zero_add]
  exact treeEntryStr_eq_group sp t e he h1 h2 hocc hsl

/-! ### Per-entry invariance lemmas -/

theorem treeEntryStr_filterEntry (sp : String) (e : WalkEntry) :
    treeEntryStr sp (filterEntry e) = treeEntryStr sp e := by
  simp only [treeEntryStr, filterEntry]
  congr 1
  apply strJoin_map_filter
  intro f hf
  apply if_neg
  rw [retainedFile_eq_false] at hf
  tauto

theorem entryOutput_filterEntry (e : WalkEntry) :
    entryOutput (filterEntry e) = entryOutput e := by
  show (e.files.filter retainedFile).flatMap _ = e.files.flatMap _
  apply flatMap_filter
  intro f hf
  apply if_pos
  rw [retainedFile_eq_false] at hf
  exact hf

theorem entryPrinted_filterEntry (e : WalkEntry) :
    entryPrinted (filterEntry e) = entryPrinted e := by
  show (e.files.filter retainedFile).flatMap _ = e.files.flatMap _
  apply flatMap_filter
  intro f hf
  apply if_pos
  rw [retainedFile_eq_false] at hf
  exact hf

theorem treeEntryStr_mapEntry (sp : String) (g : ReadResult → ReadResult)
    (e : WalkEntry) :
    treeEntryStr sp (mapEntry g e) = treeEntryStr sp e := by
  simp only [treeEntryStr, mapEntry, List.map_map]
  rfl

/-! ### Claim C1 -/

/-- C1: a directory whose name is in the ignored set is pruned before either
traversal descends into it, so its whole subtree is absent from both the tree
listing and the content output: removing every ignored-named subtree from the
filesystem changes neither `generate_tree` nor `generate_prompt`. -/
theorem claim1_ignored_dirs_pruned (sp : String) (t : FSTree) :
    generate_tree sp (prune t) = generate_tree sp t
    ∧ generate_prompt sp (prune t) = generate_prompt sp t := by
  have htree : generate_tree sp (prune t) = generate_tree sp t := by
    rw [generate_tree, generate_tree, walk_prune]
  refine ⟨htree, ?_⟩
  rw [generate_prompt, generate_prompt, walk_prune, htree]

/-! ### Claim C2 -/

/-- C2: a file whose exact name is in the ignored-file set, or whose
extension is in the ignored-extension set, appears in neither the tree
listing nor the content output: removing all such files from the filesystem
changes neither `generate_tree` nor `generate_prompt`. -/
theorem claim2_ignored_files_absent (sp : String) (t : FSTree) :
    generate_tree sp (dropIgnoredFiles t) = generate_tree sp t
    ∧ generate_prompt sp (dropIgnoredFiles t) = generate_prompt sp t := by
  have htree : generate_tree sp (dropIgnoredFiles t) = generate_tree sp t := by
    rw [generate_tree, generate_tree, walk_dropIgnoredFiles, List.map_map]
    congr 2
    apply congrArg
    apply List.map_congr_left
    intro e he
    exact treeEntryStr_filterEntry sp e
  refine ⟨htree, ?_⟩
  rw [generate_prompt, generate_prompt, walk_dropIgnoredFiles, htree,
    List.flatMap_map, List.flatMap_map]
  congr 1
  · apply congrArg
    apply List.flatMap_congr
    intro e he
    exact entryOutput_filterEntry e
  · apply List.flatMap_congr
    intro e he
    exact entryPrinted_filterEntry e

/-! ### Claim C3 -/

/-- C3: every block of the content output carries the same relative path in
its start and end markers (both are built from one `rel_path`), and the text
between the fences is exactly the content read from a file that exists on
disk at that relative path. -/
theorem claim3_content_blocks_faithful (sp : String) (t : FSTree)
    (p : List String) (n b : String) (h : (p, n, b) ∈ emitted t) :
    SegmentOf (fileBlock (relpath p n) b) ((generate_prompt sp t).output)
    ∧ ∃ d f, DirAt t p d ∧ f ∈ d.filesOf ∧ f.name = n
        ∧ f.content = ReadResult.ok b := by
  constructor
  · rw [generate_prompt_output_eq]
    apply segmentOf_append_left
    exact segmentOf_flatMap (emitted t)
      (fun r => fileBlock (relpath r.1 r.2.1) r.2.2) (p, n, b) h
  · rcases (mem_emitted t p n b).mp h with ⟨e, he, hpe, f, hf, hn, _, hc⟩
    rcases mem_walk_dirAt t e he with ⟨d, hd, _, hdf⟩
    refine ⟨d, f, ?_, ?_, hn, hc⟩
    · rw [hpe]
      exact hd
    · rw [hdf]
      exact hf

/-! ### Claim C4 -/

/-- C4: completeness of the content collector.  Every file that sits in a
directory reachable without crossing an ignored directory name, whose name
and extension survive the ignore rules, and whose content was read
successfully, contributes a record to `emitted` and its five-line block
appears contiguously in the content output. -/
theorem claim4_content_completeness (sp : String) (t : FSTree)
    (p : List String) (d : FSTree) (f : FileEnt) (c : String)
    (hdir : DirAt t p d) (hp : ∀ x ∈ p, x ∉ IGNORE_DIRS)
    (hf : f ∈ d.filesOf)
    (hn : f.name ∉ IGNORE_FILES) (hx : splitext_ext f.name ∉ IGNORE_EXTENSIONS)
    (hc : f.content = ReadResult.ok c) :
    (p, f.name, c) ∈ emitted t
    ∧ SegmentOf (fileBlock (relpath p f.name) c)
        ((generate_prompt sp t).output) := by
  have hmem : (p, f.name, c) ∈ emitted t := by
    rw [mem_emitted]
    exact ⟨⟨p, d.nameOf, d.filesOf⟩, dirAt_mem_walk t p d hdir hp, rfl, f, hf,
      rfl, (retainedFile_eq_true f).mpr ⟨hn, hx⟩, hc⟩
  refine ⟨hmem, ?_⟩
  rw [generate_prompt_output_eq]
  apply segmentOf_append_left
  exact segmentOf_flatMap (emitted t)
    (fun r => fileBlock (relpath r.1 r.2.1) r.2.2) (p, f.name, c) hmem

/-! ### Claim C5 -/

/-- C5: when the resolved root path does not exist, the program prints a
diagnostic naming the missing path, writes no output file (the previous state
of the output path is untouched), and returns normally; when the path exists
the run always proceeds to write the output — the missing root is the only
fatal condition. -/
theorem claim5_missing_root_fatal (sp out : String) (t : FSTree)
    (prev : Option String) :
    (main_model sp false t out).written = none
    ∧ (main_model sp false t out).printed
        = ["Error: Path \x27" ++ sp ++ "\x27 does not exist."]
    ∧ fileAfterRun prev (main_model sp false t out) out = prev
    ∧ (main_model sp true t out).written
        = some (out, joinSep "\n" (generate_prompt sp t).output) := by
  exact ⟨rfl, rfl, rfl, rfl⟩

/-! ### Claim C7 -/

/-- C7: two runs over identical directory trees (same listings, same file
contents, nothing changed in between) produce identical results — the run is
a pure function of the tree snapshot. -/
theorem claim7_idempotent (sp out : String) (t1 t2 : FSTree) (h : t1 = t2) :
    main_model sp true t1 out = main_model sp true t2 out := by
  rw [h]

/-! ### Claim C9 -/

/-- C9: when the root exists, the written file is at the configured output
path, its content is exactly the tree renderer's output followed by the
content collector's output, and it replaces whatever was previously at that
path. -/
theorem claim9_orchestrator_output (sp out : String) (t : FSTree)
    (prev : Option String) :
    (main_model sp true t out).written
      = some (out, generate_tree sp t ++ content_output t)
    ∧ fileAfterRun prev (main_model sp true t out) out
      = some (generate_tree sp t ++ content_output t) := by
  have hw : (main_model sp true t out).written
      = some (out, generate_tree sp t ++ content_output t) := by
    show some (out, joinSep "\n" (generate_prompt sp t).output) = _
    rw [generate_prompt]
    rw [show ([generate_tree sp t, "### FILE CONTENTS ###\n"]
          ++ (walk t).flatMap entryOutput)
        = generate_tree sp t :: ("### FILE CONTENTS ###\n"
            :: (walk t).flatMap entryOutput) from rfl]
    rw [joinSep_cons_cons, content_output, String.append_assoc]
  refine ⟨hw, ?_⟩
  simp [fileAfterRun, hw]

/-! ### Claim C10 -/

/-- C10: every fenced code block in the content output opens with the literal
language tag `typescript`, for every emitted file, whatever its extension:
the whole output list is the tree, the header, and per emitted record five
items whose second is the fixed string. -/
theorem claim10_typescript_fence (sp : String) (t : FSTree) :
    (generate_prompt sp t).output
      = [generate_tree sp t, "### FILE CONTENTS ###\n"]
          ++ (emitted t).flatMap (fun r =>
            ["--- START OF FILE: " ++ relpath r.1 r.2.1 ++ " ---",
             "```typescript", r.2.2, "```",
             "--- END OF FILE: " ++ relpath r.1 r.2.1 ++ " ---\n"]) :=
  generate_prompt_output_eq sp t

/-! ### Claim C6 -/

/-- C6: a retained file whose read or decode fails is skipped with a printed
diagnostic naming the file and the cause; no part of any content block comes
from a file that was not read successfully; every other retained readable
file is still emitted; the run still completes and writes its output; and the
tree listing never depends on file contents, so the unreadable file can still
appear there. -/
theorem claim6_unreadable_file_skipped (sp out : String) (t : FSTree)
    (e : WalkEntry) (f : FileEnt) (err : String)
    (he : e ∈ walk t) (hf : f ∈ e.files)
    (hn : f.name ∉ IGNORE_FILES) (hx : splitext_ext f.name ∉ IGNORE_EXTENSIONS)
    (hc : f.content = ReadResult.error err) :
    ("Skipping file " ++ relpath e.path f.name ++ " due to read error: " ++ err)
        ∈ (generate_prompt sp t).printed
    ∧ (∀ p n b, (p, n, b) ∈ emitted t →
        ∃ e2 f2, e2 ∈ walk t ∧ f2 ∈ e2.files ∧ f2.content = ReadResult.ok b)
    ∧ (∀ (e2 : WalkEntry) (f2 : FileEnt) (c2 : String), e2 ∈ walk t →
        f2 ∈ e2.files → f2.name ∉ IGNORE_FILES →
        splitext_ext f2.name ∉ IGNORE_EXTENSIONS →
        f2.content = ReadResult.ok c2 → (e2.path, f2.name, c2) ∈ emitted t)
    ∧ (main_model sp true t out).written
        = some (out, joinSep "\n" (generate_prompt sp t).output)
    ∧ (∀ g, generate_tree sp (mapContents g t) = generate_tree sp t) := by
  refine ⟨?_, ?_, ?_, rfl, ?_⟩
  · show _ ∈ (walk t).flatMap entryPrinted
    rw [List.mem_flatMap]
    refine ⟨e, he, ?_⟩
    show _ ∈ e.files.flatMap _
    rw [List.mem_flatMap]
    refine ⟨f, hf, ?_⟩
    rw [if_neg (by tauto), hc]
    exact List.mem_singleton.mpr rfl
  · intro p n b hmem
    rcases (mem_emitted t p n b).mp hmem with ⟨e2, he2, _, f2, hf2, _, _, hc2⟩
    exact ⟨e2, f2, he2, hf2, hc2⟩
  · intro e2 f2 c2 he2 hf2 hn2 hx2 hc2
    rw [mem_emitted]
    exact ⟨e2, he2, rfl, f2, hf2, rfl,
      (retainedFile_eq_true f2).mpr ⟨hn2, hx2⟩, hc2⟩
  · intro g
    rw [generate_tree, generate_tree, walk_mapContents, List.map_map]
    congr 2
    apply congrArg
    apply List.map_congr_left
    intro e2 he2
    exact treeEntryStr_mapEntry sp g e2

/-! ### Claim C8 -/

/-- The directory tree of the counterexample: the root `/a` contains a
subdirectory that is also called `a`. -/
def counterTree : FSTree :=
  FSTree.node "a" [FSTree.node "a" [] [⟨"f.ts", ReadResult.ok "x"⟩]] []

/-- C8 as stated is false: with root path `/a` and a subdirectory named `a`,
`root.replace(startpath, '')` removes both occurrences of `/a` from `/a/a`,
so the subdirectory at depth 1 is rendered with indentation 0 instead of 4
spaces, and the rendered tree differs from the specified format. -/
theorem claim8_counterexample :
    generate_tree "/a" counterTree ≠ specTreeRender counterTree := by
  decide

/-- C8 amended: the tree listing renders every retained directory at depth
`d` indented by exactly `4*d` spaces with its name suffixed by `/`, and every
retained file one level deeper, depth-first — provided the absolute root path
is nonempty, its basename is the root directory's name, directory names
contain no slash, and the root path string does not reoccur inside the
relative suffix of any visited directory (the condition the counterexample
violates; without it the `replace`-based level computation miscounts). -/
theorem claim8_tree_format_amended (sp : String) (t : FSTree)
    (h1 : sp.toList ≠ [])
    (h2 : basenameChars sp.toList = t.nameOf.toList)
    (h3 : goodWalk sp t = true) :
    generate_tree sp t = specTreeRender t :=
  generate_tree_eq_spec sp t h1 h2 h3

/-! ### Concrete sample filesystem used by the witnesses -/

/-- A sample subdirectory with one readable and one unreadable file. -/
def srcDir : FSTree :=
  FSTree.node "src" []
    [⟨"app.ts", ReadResult.ok "export const x = 1;"⟩,
     ⟨"bin.dat", ReadResult.error "invalid utf-8"⟩]

/-- A sample project tree at absolute path `/proj`. -/
def sampleTree : FSTree :=
  FSTree.node "proj" [srcDir] [⟨"README.md", ReadResult.ok "hello"⟩]

theorem claim3_content_blocks_faithful_witness :
    SegmentOf (fileBlock (relpath ["src"] "app.ts") "export const x = 1;")
        ((generate_prompt "/proj" sampleTree).output)
    ∧ ∃ d f, DirAt sampleTree ["src"] d ∧ f ∈ d.filesOf ∧ f.name = "app.ts"
        ∧ f.content = ReadResult.ok "export const x = 1;" :=
  claim3_content_blocks_faithful "/proj" sampleTree ["src"] "app.ts"
    "export const x = 1;" (by decide)

theorem claim4_content_completeness_witness :
    (["src"], "app.ts", "export const x = 1;") ∈ emitted sampleTree
    ∧ SegmentOf (fileBlock (relpath ["src"] "app.ts") "export const x = 1;")
        ((generate_prompt "/proj" sampleTree).output) :=
  claim4_content_completeness "/proj" sampleTree ["src"] srcDir
    ⟨"app.ts", ReadResult.ok "export const x = 1;"⟩ "export const x = 1;"
    (DirAt.there "proj" [srcDir] [⟨"README.md", ReadResult.ok "hello"⟩]
      srcDir srcDir [] (List.mem_cons_self srcDir []) (DirAt.here srcDir))
    (by decide) (by decide) (by decide) (by decide) rfl

theorem claim6_unreadable_file_skipped_witness :
    ("Skipping file " ++ relpath ["src"] "bin.dat" ++ " due to read error: "
        ++ "invalid utf-8") ∈ (generate_prompt "/proj" sampleTree).printed
    ∧ (∀ p n b, (p, n, b) ∈ emitted sampleTree →
        ∃ e2 f2, e2 ∈ walk sampleTree ∧ f2 ∈ e2.files
          ∧ f2.content = ReadResult.ok b)
    ∧ (∀ (e2 : WalkEntry) (f2 : FileEnt) (c2 : String), e2 ∈ walk sampleTree →
        f2 ∈ e2.files → f2.name ∉ IGNORE_FILES →
        splitext_ext f2.name ∉ IGNORE_EXTENSIONS →
        f2.content = ReadResult.ok c2 →
        (e2.path, f2.name, c2) ∈ emitted sampleTree)
    ∧ (main_model "/proj" true sampleTree "project_context.txt").written
        = some ("project_context.txt",
            joinSep "\n" (generate_prompt "/proj" sampleTree).output)
    ∧ (∀ g, generate_tree "/proj" (mapContents g sampleTree)
        = generate_tree "/proj" sampleTree) :=
  claim6_unreadable_file_skipped "/proj" "project_context.txt" sampleTree
    ⟨["src"], "src", srcDir.filesOf⟩
    ⟨"bin.dat", ReadResult.error "invalid utf-8"⟩ "invalid utf-8"
    (by decide) (by decide) (by decide) (by decide) rfl

theorem claim7_idempotent_witness :
    main_model "/proj" true sampleTree "out.txt"
      = main_model "/proj" true sampleTree "out.txt" :=
  claim7_idempotent "/proj" "out.txt" sampleTree sampleTree rfl

theorem claim8_tree_format_amended_witness :
    generate_tree "/proj" sampleTree = specTreeRender sampleTree :=
  claim8_tree_format_amended "/proj" sampleTree (by decide) (by decide)
    (by decide)
